import Mathlib

/-!
Shallow embedding of the indexing/daemon core of `scripts/vault-search.py`
(semantic search over a markdown vault), together with theorems checking the
specification's claims about it.  Filesystem, socket and process effects are
made explicit: candidate files carry their stat result and readable content,
the index store is represented by the set of document ids it holds, and the
per-connection daemon handling is a pure function from the parsed request to
the response written (if any).
-/

namespace VaultSearch

/-- A search result row as returned by the embeddings index.  txtai is
configured with content=True, so rows are dicts carrying these fields.
Relevance scores are modelled as integers; only their ordering matters. -/
structure SearchResult where
  id : String
  path : String
  title : String
  score : Int
  text : String
deriving DecidableEq

/-- Stable descending insertion: place `p` before the first element whose
score is strictly smaller, keeping earlier elements first on ties. -/
def insertDesc (p : SearchResult × Int) :
    List (SearchResult × Int) → List (SearchResult × Int)
  | [] => [p]
  | q :: rest => if q.2 ≤ p.2 then p :: q :: rest else q :: insertDesc p rest

/-- Embedding of Python `sorted(pairs, key=lambda x: x[1], reverse=True)`,
which is documented to be a stable sort (ties keep their original order). -/
def sortDesc (l : List (SearchResult × Int)) : List (SearchResult × Int) :=
  l.foldr insertDesc []

/-- Embedding of `do_search` (vault-search.py, lines 330-346).  The
embeddings index is abstracted as a function from (query, limit) to the
candidate list; the cross-encoder reranker as an optional per-text scorer
(the daemon always passes one, the direct path passes one iff rerank). -/
def do_search (query : String) (limit : Nat) (rerank : Bool)
    (embSearch : String → Nat → List SearchResult)
    (reranker : Option (String → String → Int)) : List SearchResult :=
  let search_limit := if rerank then limit * 2 else limit
  let results := embSearch query search_limit
  if results.isEmpty then []
  else
    match reranker with
    | some rr =>
      if rerank ∧ 1 < results.length then
        let texts := results.map (fun r => r.text.take 1000)
        let scores := texts.map (rr query)
        let ranked := sortDesc (results.zip scores)
        (ranked.take limit).map Prod.fst
      else results.take limit
    | none => results.take limit

/-- Query Engine written following the specification's words (spec section
4.3), to be compared with `do_search`: fetch 2 × limit candidates when
reranking is requested else limit; if reranking is enabled and at least two
candidates were returned, score each candidate's text truncated to its first
1000 characters, sort by score descending (stable), truncate to limit;
otherwise truncate the raw retrieval order to limit. -/
def query_engine_spec (query : String) (limit : Nat) (rerank : Bool)
    (embSearch : String → Nat → List SearchResult)
    (rr : String → String → Int) : List SearchResult :=
  let candidates := embSearch query (if rerank then 2 * limit else limit)
  if rerank ∧ 2 ≤ candidates.length then
    let scored := candidates.zip (candidates.map (fun c => rr query (c.text.take 1000)))
    ((sortDesc scored).take limit).map Prod.fst
  else candidates.take limit

theorem insertDesc_mem (a p : SearchResult × Int) (l : List (SearchResult × Int)) :
    a ∈ insertDesc p l ↔ a = p ∨ a ∈ l := by
  induction l with
  | nil => simp [insertDesc]
  | cons q rest ih =>
    by_cases hq : q.2 ≤ p.2
    · rw [insertDesc, if_pos hq]
      simp [List.mem_cons]
    · rw [insertDesc, if_neg hq]
      simp only [List.mem_cons, ih]
      tauto

/-- Every pair in the output of `insertDesc` keeps the descending-score
pairwise order if the input had it. -/
theorem insertDesc_pairwise (p : SearchResult × Int) (l : List (SearchResult × Int))
    (h : l.Pairwise (fun a b => b.2 ≤ a.2)) :
    (insertDesc p l).Pairwise (fun a b => b.2 ≤ a.2) := by
  induction l with
  | nil => simp [insertDesc]
  | cons q rest ih =>
    rw [List.pairwise_cons] at h
    by_cases hq : q.2 ≤ p.2
    · rw [insertDesc, if_pos hq]
      refine List.pairwise_cons.mpr ⟨?_, List.pairwise_cons.mpr h⟩
      intro a ha
      rcases List.mem_cons.mp ha with rfl | ha'
      · exact hq
      · exact le_trans (h.1 a ha') hq
    · rw [insertDesc, if_neg hq]
      refine List.pairwise_cons.mpr ⟨?_, ih h.2⟩
      intro a ha
      rcases (insertDesc_mem a p rest).mp ha with rfl | ha'
      · exact le_of_lt (lt_of_not_le hq)
      · exact h.1 a ha'

theorem sortDesc_sorted (l : List (SearchResult × Int)) :
    (sortDesc l).Pairwise (fun a b => b.2 ≤ a.2) := by
  induction l with
  | nil => simp [sortDesc]
  | cons p rest ih => exact insertDesc_pairwise p _ ih

/-- C5: `do_search` asks the index for `2 × limit` candidates when reranking
is requested and `limit` otherwise; with a reranker present, when reranking
is enabled and at least two candidates came back it scores each candidate's
first 1000 characters against the query, stably sorts by score descending
and truncates to `limit`; otherwise it truncates the raw retrieval order to
`limit` — i.e. it coincides with the Query Engine as worded in the spec. -/
theorem do_search_matches_spec (q : String) (limit : Nat) (rerank : Bool)
    (es : String → Nat → List SearchResult) (rr : String → String → Int) :
    do_search q limit rerank es (some rr) = query_engine_spec q limit rerank es rr := by
  simp only [do_search, query_engine_spec]
  have hm : (if rerank then limit * 2 else limit) = if rerank then 2 * limit else limit := by
    cases rerank <;> simp [Nat.mul_comm]
  rw [hm]
  rcases hres : es q (if rerank then 2 * limit else limit) with _ | ⟨a, tail⟩
  · simp
  · rw [if_neg (by simp : ¬ (a :: tail).isEmpty = true), List.map_map]
    by_cases hc : (rerank = true ∧ 2 ≤ (a :: tail).length)
    · rw [if_pos (show rerank = true ∧ 1 < (a :: tail).length from ⟨hc.1, hc.2⟩), if_pos hc]
      rfl
    · rw [if_neg (fun h => hc ⟨h.1, h.2⟩), if_neg hc]

/-- Result of `filepath.stat()`: modification time and size, the two fields
`get_file_metadata` captures for change detection. -/
structure FileMeta where
  mtime : Int
  size : Nat
deriving DecidableEq

/-- A value stored in the change-tracking JSON file: either the legacy
content-hash string format or the structured mtime+size record. -/
inductive MetaVal where
  | legacy (hash : String)
  | record (meta : FileMeta)
deriving DecidableEq

def MetaVal.isRecord : MetaVal → Bool
  | .legacy _ => false
  | .record _ => true

/-- A candidate file as seen by the build: its key (path relative to the
vault root), the result of stat (none models an OSError) and its readable
content (none models read_text raising, i.e. extraction failure). -/
structure VFile where
  key : String
  stat : Option FileMeta
  content : Option String
deriving DecidableEq

/-- Embedding of `get_file_metadata` (lines 154-157): returns the stat
fields; the source has no exception handler here, so a stat failure (none)
propagates out of the build. -/
def get_file_metadata (f : VFile) : Option FileMeta := f.stat

/-- Embedding of `file_changed` (lines 160-168): new file (no previous
metadata) is changed; a stat OSError is treated as changed; otherwise
changed iff mtime or size differs. -/
def file_changed (f : VFile) (old_meta : Option FileMeta) : Bool :=
  match old_meta with
  | none => true
  | some m =>
    match f.stat with
    | none => true
    | some s => s.mtime != m.mtime || s.size != m.size

/-- `Path.stem` for the names produced by rglob, which all end in `.md`. -/
def pathStem (p : String) : String :=
  let name := (p.splitOn "/").getLastD p
  if name.endsWith ".md" ∧ 3 < name.length then name.dropRight 3 else name

/-- The document record built for indexing. -/
structure VaultDoc where
  id : String
  text : String
  title : String
  path : String
deriving DecidableEq

/-- Embedding of `extract_document` (lines 191-211): none when the file
cannot be read (warning printed, file skipped); otherwise the id and path
are the root-relative path, and the title is the first line starting with
a hash-space, stripped, else the filename stem. -/
def extract_document (f : VFile) : Option VaultDoc :=
  match f.content with
  | none => none
  | some content =>
    let title :=
      match (content.splitOn "\n").find? (fun line => line.startsWith "# ") with
      | some line => (line.drop 2).trim
      | none => pathStem f.key
    some { id := f.key, text := content, title := title, path := f.key }

/-- Embedding of `load_file_metadata` (lines 171-182).  The argument is the
parsed content of the metadata file (none = file absent or JSON decode
error).  If the mapping is nonempty and its first value is a string (the
legacy hash format) the whole mapping is discarded. -/
def load_file_metadata (fileData : Option (List (String × MetaVal))) :
    List (String × MetaVal) :=
  match fileData with
  | none => []
  | some data =>
    match data.head? with
    | some p =>
      match p.2 with
      | MetaVal.legacy _ => []
      | MetaVal.record _ => data
    | none => data

/-- `old_metadata.get(file_key)` on the dict modelled as an association
list. -/
def lookupOld (old : List (String × MetaVal)) (k : String) : Option MetaVal :=
  (old.find? (fun p => p.1 == k)).map Prod.snd

/-- The extraction arm of the per-file loop body in `build_index`
(lines 281-284): skip the file when extraction fails, otherwise stat it
again via `get_file_metadata` (whose failure raises) and append both the
document and its fresh metadata. -/
def extractStep (f : VFile)
    (restResult : Except String (List (String × FileMeta) × List VaultDoc)) :
    Except String (List (String × FileMeta) × List VaultDoc) :=
  match extract_document f with
  | none => restResult
  | some doc =>
    match get_file_metadata f with
    | none => Except.error "OSError in get_file_metadata"
    | some m =>
      match restResult with
      | Except.ok (meta, docs) => Except.ok ((f.key, m) :: meta, doc :: docs)
      | Except.error e => Except.error e

/-- The per-file loop of `build_index` (lines 272-284), producing the new
metadata mapping and the list of extracted documents in file order.  When
`incremental`, an unchanged file carries its old record forward without
extraction; a legacy (string) old value makes `file_changed` raise an
AttributeError unless the stat itself already failed (the source checks the
stat inside the try block before touching the old value). -/
def processFiles (incremental : Bool) (old : List (String × MetaVal)) :
    List VFile → Except String (List (String × FileMeta) × List VaultDoc)
  | [] => Except.ok ([], [])
  | f :: rest =>
    if incremental then
      match lookupOld old f.key with
      | some (MetaVal.record m) =>
        if file_changed f (some m) then extractStep f (processFiles incremental old rest)
        else
          match processFiles incremental old rest with
          | Except.ok (meta, docs) => Except.ok ((f.key, m) :: meta, docs)
          | Except.error e => Except.error e
      | some (MetaVal.legacy _) =>
        match f.stat with
        | none => extractStep f (processFiles incremental old rest)
        | some _ => Except.error "AttributeError in file_changed on legacy value"
      | none => extractStep f (processFiles incremental old rest)
    else extractStep f (processFiles incremental old rest)

/-- Whether the loop body sends a file to extraction (as opposed to
carrying its old record forward). -/
def willExtract (incremental : Bool) (old : List (String × MetaVal)) (f : VFile) : Bool :=
  if incremental then
    match lookupOld old f.key with
    | some (MetaVal.record m) => file_changed f (some m)
    | some (MetaVal.legacy _) => true
    | none => true
  else true

/-- `set(old_metadata.keys()) - current_files` (line 287); empty unless
incremental. -/
def deletedKeys (incremental : Bool) (old : List (String × MetaVal))
    (files : List VFile) : List String :=
  if incremental then
    (old.map Prod.fst).filter (fun k => !(files.any (fun f => f.key == k)))
  else []

/-- An operation issued against the embeddings index during a build. -/
inductive IndexOp where
  | upsert (ids : List String)
  | deleteId (idv : String)
  | bulkIndex (ids : List String)
deriving DecidableEq

/-- Persistent state touched by a build: whether the snapshot directory
exists, the set of document ids in the saved snapshot, and the parsed
content of the change-tracking metadata file. -/
structure Store where
  snapshotExists : Bool
  snapshotIds : Finset String
  metaFile : Option (List (String × MetaVal))
deriving DecidableEq

/-- The three vault-root validity checks at the top of `build_index`. -/
structure RootState where
  configured : Bool
  pathExists : Bool
  isDir : Bool
deriving DecidableEq

structure BuildResult where
  changed : Nat
  deleted : Nat
deriving DecidableEq

/-- Embedding of `build_index` (lines 230-323).  `saveOk` is whether
`embeddings.save` succeeds; `memIds` is the id set already held by a
daemon-provided in-memory embeddings instance (none on the fresh-load
path, where the persisted snapshot is loaded instead).  Returns the result
(errors cover both the error-dict returns and raised exceptions), the
resulting persistent state, and the trace of index operations issued. -/
def build_index (incremental : Bool) (root : RootState) (saveOk : Bool)
    (files : List VFile) (st : Store) (memIds : Option (Finset String)) :
    Except String BuildResult × Store × List IndexOp :=
  if !root.configured then (Except.error "Vault path not configured", st, [])
  else if !root.pathExists then (Except.error "Vault path does not exist", st, [])
  else if !root.isDir then (Except.error "Vault path is not a directory", st, [])
  else
    let old_metadata := if incremental then load_file_metadata st.metaFile else []
    match processFiles incremental old_metadata files with
    | Except.error e => (Except.error e, st, [])
    | Except.ok (new_metadata, documents) =>
      let deleted := deletedKeys incremental old_metadata files
      if incremental ∧ documents = [] ∧ deleted = [] then
        (Except.ok ⟨0, 0⟩, st, [])
      else
        let docIds := documents.map VaultDoc.id
        let loaded := memIds.getD st.snapshotIds
        let newIds :=
          if incremental ∧ st.snapshotExists then
            (loaded ∪ docIds.toFinset) \ deleted.toFinset
          else docIds.toFinset
        let ops :=
          if incremental ∧ st.snapshotExists then
            (if documents = [] then [] else [IndexOp.upsert docIds]) ++
              deleted.map IndexOp.deleteId
          else [IndexOp.bulkIndex docIds]
        if saveOk then
          (Except.ok ⟨documents.length, deleted.length⟩,
           { snapshotExists := true, snapshotIds := newIds,
             metaFile := some (new_metadata.map (fun p => (p.1, MetaVal.record p.2))) },
           ops)
        else (Except.error "embeddings save failed", st, ops)

/-- The set of keys the persisted change-tracking file accounts for. -/
def metaKeys (metaFile : Option (List (String × MetaVal))) : Finset String :=
  ((load_file_metadata metaFile).map Prod.fst).toFinset

/-- The spec's snapshot/metadata coherence invariant: the metadata file
accounts for exactly the ids in the saved snapshot, an absent snapshot
means no tracked ids, and every stored value is a structured record. -/
def StoreInv (st : Store) : Prop :=
  metaKeys st.metaFile = st.snapshotIds ∧
  (st.snapshotExists = false → st.snapshotIds = ∅) ∧
  ∀ p ∈ load_file_metadata st.metaFile, MetaVal.isRecord p.2 = true

/-- C6: the change check returns true exactly when the prior record is
absent, the stat call fails, or the stored modification time or size
differs from the current one; and it is independent of the file content
(it never reads it). -/
theorem file_changed_characterization (k : String) (s : Option FileMeta)
    (c c' : Option String) (old : Option FileMeta) :
    (file_changed ⟨k, s, c⟩ old = true ↔
      old = none ∨ s = none ∨
      ∃ m cur, old = some m ∧ s = some cur ∧
        (cur.mtime ≠ m.mtime ∨ cur.size ≠ m.size)) ∧
    file_changed ⟨k, s, c⟩ old = file_changed ⟨k, s, c'⟩ old := by
  constructor
  · cases old with
    | none => simp [file_changed]
    | some m =>
      cases s with
      | none => simp [file_changed]
      | some cur => simp [file_changed]
  · rfl

/-- C4: in a build whose snapshot save raises, the previously persisted
change-tracking metadata file is left untouched (it is only ever written
after a successful save). -/
theorem metadata_unchanged_on_save_failure (incremental : Bool) (root : RootState)
    (files : List VFile) (st : Store) (memIds : Option (Finset String)) :
    (build_index incremental root false files st memIds).2.1.metaFile = st.metaFile := by
  simp only [build_index]
  rcases hpf : processFiles incremental
      (if incremental then load_file_metadata st.metaFile else []) files with e | ⟨nm, docs⟩ <;>
    repeat' split
  all_goals first | rfl | simp_all

/-- C8: an incremental build that finds zero changed/new documents and zero
deletions reports zero/zero, leaves the persisted snapshot and metadata
exactly as they were, and issues no index operation. -/
theorem incremental_noop_short_circuit (saveOk : Bool) (files : List VFile)
    (st : Store) (memIds : Option (Finset String))
    (meta : List (String × FileMeta))
    (hpf : processFiles true (load_file_metadata st.metaFile) files =
      Except.ok (meta, []))
    (hdel : deletedKeys true (load_file_metadata st.metaFile) files = []) :
    build_index true ⟨true, true, true⟩ saveOk files st memIds =
      (Except.ok ⟨0, 0⟩, st, []) := by
  simp [build_index, hpf, hdel]

/-- C9: a metadata file entirely in the legacy hash-string format loads as
empty metadata, and the per-file loop of the next incremental build then
behaves exactly like a full rebuild's loop: every candidate goes to
extraction. -/
theorem legacy_metadata_forces_reextraction (data : List (String × MetaVal))
    (files : List VFile) (hne : data ≠ [])
    (hleg : ∀ p ∈ data, MetaVal.isRecord p.2 = false) :
    load_file_metadata (some data) = [] ∧
    processFiles true (load_file_metadata (some data)) files =
      processFiles false [] files := by
  have hload : load_file_metadata (some data) = [] := by
    cases data with
    | nil => exact absurd rfl hne
    | cons p rest =>
      have hp := hleg p (List.mem_cons_self p rest)
      cases hv : p.2 with
      | legacy h => simp [load_file_metadata, hv]
      | record m => rw [hv] at hp; simp [MetaVal.isRecord] at hp
  refine ⟨hload, ?_⟩
  rw [hload]
  induction files with
  | nil => rfl
  | cons f rest ih => simp [processFiles, lookupOld, ih]

theorem lookupOld_mem (old : List (String × MetaVal)) (k : String) (v : MetaVal)
    (h : lookupOld old k = some v) : ∃ p ∈ old, p.2 = v := by
  unfold lookupOld at h
  cases hf : old.find? (fun p => p.1 == k) with
  | none => rw [hf] at h; simp at h
  | some p =>
    rw [hf] at h
    simp at h
    exact ⟨p, List.mem_of_find?_eq_some hf, h⟩

theorem lookupOld_eq_none_iff (old : List (String × MetaVal)) (k : String) :
    lookupOld old k = none ↔ ∀ p ∈ old, p.1 ≠ k := by
  simp [lookupOld, List.find?_eq_none]

theorem extract_document_of_content (f : VFile) (c : String) (hc : f.content = some c) :
    ∃ d, extract_document f = some d ∧ d.id = f.key := by
  unfold extract_document
  rw [hc]
  exact ⟨_, rfl, rfl⟩

/-- Under the hypotheses that every candidate can be read and statted and
that all prior metadata values are structured records, the per-file loop
succeeds, records every candidate in the new metadata (in file order), and
extracts exactly the candidates `willExtract` selects. -/
theorem processFiles_ok (incremental : Bool) (old : List (String × MetaVal))
    (hrec : ∀ p ∈ old, MetaVal.isRecord p.2 = true) (files : List VFile)
    (hread : ∀ f ∈ files, f.content.isSome = true ∧ f.stat.isSome = true) :
    ∃ meta docs, processFiles incremental old files = Except.ok (meta, docs) ∧
      meta.map Prod.fst = files.map VFile.key ∧
      docs.map VaultDoc.id =
        (files.filter (fun f => willExtract incremental old f)).map VFile.key := by
  induction files with
  | nil => exact ⟨[], [], rfl, rfl, rfl⟩
  | cons f rest ih =>
    have hrest : ∀ g ∈ rest, g.content.isSome = true ∧ g.stat.isSome = true :=
      fun g hg => hread g (List.mem_cons_of_mem f hg)
    obtain ⟨meta, docs, hpf, hmeta, hdocs⟩ := ih hrest
    have hf := hread f (List.mem_cons_self f rest)
    obtain ⟨c, hc⟩ := Option.isSome_iff_exists.mp hf.1
    obtain ⟨s, hs⟩ := Option.isSome_iff_exists.mp hf.2
    obtain ⟨d, hd, hdid⟩ := extract_document_of_content f c hc
    have hstep : extractStep f (processFiles incremental old rest) =
        Except.ok ((f.key, s) :: meta, d :: docs) := by
      unfold extractStep
      rw [hd, get_file_metadata, hs, hpf]
    cases incremental with
    | false =>
      refine ⟨(f.key, s) :: meta, d :: docs, ?_, by simp [hmeta], ?_⟩
      · rw [processFiles]
        simpa using hstep
      · simp [willExtract, hdid, hdocs]
    | true =>
      cases hlk : lookupOld old f.key with
      | none =>
        refine ⟨(f.key, s) :: meta, d :: docs, ?_, by simp [hmeta], ?_⟩
        · rw [processFiles]
          simpa [hlk] using hstep
        · simp [willExtract, hlk, hdid, hdocs]
      | some v =>
        cases v with
        | legacy h =>
          exfalso
          obtain ⟨p, hpmem, hpv⟩ := lookupOld_mem old f.key _ hlk
          have hr := hrec p hpmem
          rw [hpv] at hr
          simp [MetaVal.isRecord] at hr
        | record m =>
          by_cases hch : file_changed f (some m) = true
          · refine ⟨(f.key, s) :: meta, d :: docs, ?_, by simp [hmeta], ?_⟩
            · rw [processFiles]
              simpa [hlk, hch] using hstep
            · simp [willExtract, hlk, hch, hdid, hdocs]
          · have hch' : file_changed f (some m) = false := by
              revert hch
              cases file_changed f (some m) <;> simp
            refine ⟨(f.key, m) :: meta, docs, ?_, by simp [hmeta], ?_⟩
            · rw [processFiles]
              simp [hlk, hch', hpf]
            · simp [willExtract, hlk, hch', hdocs]

/-- Saving the new metadata writes only structured records, and loading
them back returns them unchanged (the legacy guard does not fire). -/
theorem load_map_record (meta : List (String × FileMeta)) :
    load_file_metadata (some (meta.map (fun p => (p.1, MetaVal.record p.2)))) =
      meta.map (fun p => (p.1, MetaVal.record p.2)) := by
  cases meta with
  | nil => rfl
  | cons p rest => rfl


theorem metaKeys_mem (mf : Option (List (String × MetaVal))) (x : String) :
    x ∈ metaKeys mf ↔ ∃ p ∈ load_file_metadata mf, p.1 = x := by
  simp [metaKeys]

theorem deletedKeys_mem (old : List (String × MetaVal)) (files : List VFile) (x : String) :
    x ∈ deletedKeys true old files ↔
      (∃ p ∈ old, p.1 = x) ∧ ∀ f ∈ files, f.key ≠ x := by
  simp [deletedKeys, List.mem_filter]

theorem filter_map_key_mem (w : VFile → Bool) (files : List VFile) (x : String) :
    x ∈ (files.filter w).map VFile.key ↔ ∃ f ∈ files, w f = true ∧ f.key = x := by
  simp [List.mem_filter]
  tauto

/-- C3 (amended): a successful build in which every candidate file can be
read and statted preserves the snapshot/metadata coherence invariant: the
persisted change-tracking metadata afterwards has an entry for exactly the
document ids present in the saved snapshot.  (The unamended claim, which
also allows extraction failures, is refuted separately.) -/
theorem build_preserves_store_inv (incremental : Bool)
    (files : List VFile) (st : Store) (memIds : Option (Finset String))
    (hinv : StoreInv st)
    (hmem : ∀ ids, memIds = some ids → ids = st.snapshotIds)
    (hread : ∀ f ∈ files, f.content.isSome = true ∧ f.stat.isSome = true) :
    StoreInv (build_index incremental ⟨true, true, true⟩ true files st memIds).2.1 := by
  have hloaded : memIds.getD st.snapshotIds = st.snapshotIds := by
    cases memIds with
    | none => rfl
    | some ids => exact hmem ids rfl
  cases incremental with
  | false =>
    obtain ⟨meta, docs, hpf, hmeta, hdocs⟩ :=
      processFiles_ok false [] (by simp) files hread
    have hwall : ∀ f ∈ files, willExtract false [] f = true := fun f _ => rfl
    rw [List.filter_eq_self.mpr hwall] at hdocs
    have hbuild : (build_index false ⟨true, true, true⟩ true files st memIds).2.1 =
        { snapshotExists := true,
          snapshotIds := (docs.map VaultDoc.id).toFinset,
          metaFile := some (meta.map (fun p => (p.1, MetaVal.record p.2))) } := by
      simp [build_index, hpf]
    rw [hbuild]
    refine ⟨?_, by simp, ?_⟩
    · show metaKeys (some (meta.map (fun p => (p.1, MetaVal.record p.2)))) = _
      unfold metaKeys
      rw [load_map_record, List.map_map]
      have hfst : meta.map (Prod.fst ∘ fun p => (p.1, MetaVal.record p.2))
          = meta.map Prod.fst := rfl
      rw [hfst, hmeta, hdocs]
    · show ∀ p ∈ load_file_metadata (some (meta.map (fun p => (p.1, MetaVal.record p.2)))),
        MetaVal.isRecord p.2 = true
      rw [load_map_record]
      intro p hp
      obtain ⟨q, hq, rfl⟩ := List.mem_map.mp hp
      rfl
  | true =>
    obtain ⟨meta, docs, hpf, hmeta, hdocs⟩ :=
      processFiles_ok true (load_file_metadata st.metaFile) hinv.2.2 files hread
    by_cases hsc : docs = [] ∧ deletedKeys true (load_file_metadata st.metaFile) files = []
    · simpa [build_index, hpf, hsc.1, hsc.2] using hinv
    · have hbuild : (build_index true ⟨true, true, true⟩ true files st memIds).2.1 =
          { snapshotExists := true,
            snapshotIds :=
              if st.snapshotExists = true then
                (st.snapshotIds ∪ (docs.map VaultDoc.id).toFinset) \
                  (deletedKeys true (load_file_metadata st.metaFile) files).toFinset
              else (docs.map VaultDoc.id).toFinset,
            metaFile := some (meta.map (fun p => (p.1, MetaVal.record p.2))) } := by
        rcases Decidable.not_and_iff_or_not.mp hsc with h | h <;>
          simp [build_index, hpf, hloaded, h]
      rw [hbuild]
      refine ⟨?_, by simp, ?_⟩
      swap
      · show ∀ p ∈ load_file_metadata (some (meta.map (fun p => (p.1, MetaVal.record p.2)))),
          MetaVal.isRecord p.2 = true
        rw [load_map_record]
        intro p hp
        obtain ⟨q, hq, rfl⟩ := List.mem_map.mp hp
        rfl
      · show metaKeys (some (meta.map (fun p => (p.1, MetaVal.record p.2)))) = _
        unfold metaKeys
        rw [load_map_record, List.map_map]
        have hfst : meta.map (Prod.fst ∘ fun p => (p.1, MetaVal.record p.2))
            = meta.map Prod.fst := rfl
        rw [hfst, hmeta]
        cases he : st.snapshotExists with
        | false =>
          rw [if_neg (by simp)]
          have h0 : st.snapshotIds = ∅ := hinv.2.1 he
          have h1 : ((load_file_metadata st.metaFile).map Prod.fst).toFinset = ∅ := by
            have h2 := hinv.1
            unfold metaKeys at h2
            rw [h2, h0]
          have h3 : load_file_metadata st.metaFile = [] := by
            have h4 := (List.toFinset_eq_empty_iff _).mp h1
            simpa using h4
          have hwall : ∀ f ∈ files,
              willExtract true (load_file_metadata st.metaFile) f = true := by
            intro f _
            simp [willExtract, h3, lookupOld]
          rw [hdocs, List.filter_eq_self.mpr hwall]
        | true =>
          rw [if_pos rfl, hdocs, ← hinv.1]
          have hkey : ∀ x : String, ∀ f ∈ files, f.key = x →
              (∃ p ∈ load_file_metadata st.metaFile, p.1 = x) ∨
                willExtract true (load_file_metadata st.metaFile) f = true := by
            intro x f hfm hfk
            by_cases ho : ∃ p ∈ load_file_metadata st.metaFile, p.1 = x
            · exact Or.inl ho
            · refine Or.inr ?_
              have hnone : lookupOld (load_file_metadata st.metaFile) f.key = none := by
                rw [lookupOld_eq_none_iff]
                intro p hp hpk
                exact ho ⟨p, hp, hpk.trans hfk⟩
              simp [willExtract, hnone]
          ext x
          simp only [List.mem_toFinset, Finset.mem_sdiff, Finset.mem_union,
            metaKeys_mem, deletedKeys_mem, List.mem_map]
          constructor
          · rintro ⟨f, hfm, hfk⟩
            refine ⟨?_, ?_⟩
            · rcases hkey x f hfm hfk with ho | hw
              · exact Or.inl ho
              · exact Or.inr ⟨f, List.mem_filter.mpr ⟨hfm, hw⟩, hfk⟩
            · rintro ⟨-, hall⟩
              exact hall f hfm hfk
          · rintro ⟨hor, hnot⟩
            by_cases hex : ∃ f ∈ files, f.key = x
            · exact hex
            · rcases hor with ho | ⟨f, hfm, hfk⟩
              · exact absurd ⟨ho, fun f hfm hfk => hex ⟨f, hfm, hfk⟩⟩ hnot
              · exact ⟨f, (List.mem_filter.mp hfm).1, hfk⟩

/-- Witness for the amended C3 theorem at a concrete unchanged-file build. -/
theorem build_preserves_store_inv_witness :
    StoreInv (build_index true ⟨true, true, true⟩ true
        [⟨"a.md", some ⟨0, 1⟩, some "x"⟩]
        ⟨true, {"a.md"}, some [("a.md", MetaVal.record ⟨0, 1⟩)]⟩ none).2.1 :=
  build_preserves_store_inv true [⟨"a.md", some ⟨0, 1⟩, some "x"⟩]
    ⟨true, {"a.md"}, some [("a.md", MetaVal.record ⟨0, 1⟩)]⟩ none
    ⟨by decide, by decide, by decide⟩
    (fun ids h => nomatch h)
    (by decide)

/-- C3 counterexample: an incremental build in which a changed, previously
indexed file (`a.md`, whose mtime moved from 0 to 5) fails extraction
succeeds and reports one changed document, yet leaves `a.md` present in the
saved snapshot while absent from the persisted metadata: the claimed
metadata/snapshot equality is violated. -/
theorem build_meta_snapshot_mismatch :
    StoreInv ⟨true, {"a.md"}, some [("a.md", MetaVal.record ⟨0, 1⟩)]⟩ ∧
    (build_index true ⟨true, true, true⟩ true
        [⟨"a.md", some ⟨5, 1⟩, none⟩, ⟨"b.md", some ⟨7, 2⟩, some "hello"⟩]
        ⟨true, {"a.md"}, some [("a.md", MetaVal.record ⟨0, 1⟩)]⟩ none).1 =
      Except.ok ⟨1, 0⟩ ∧
    metaKeys (build_index true ⟨true, true, true⟩ true
        [⟨"a.md", some ⟨5, 1⟩, none⟩, ⟨"b.md", some ⟨7, 2⟩, some "hello"⟩]
        ⟨true, {"a.md"}, some [("a.md", MetaVal.record ⟨0, 1⟩)]⟩ none).2.1.metaFile ≠
      (build_index true ⟨true, true, true⟩ true
        [⟨"a.md", some ⟨5, 1⟩, none⟩, ⟨"b.md", some ⟨7, 2⟩, some "hello"⟩]
        ⟨true, {"a.md"}, some [("a.md", MetaVal.record ⟨0, 1⟩)]⟩ none).2.1.snapshotIds :=
  ⟨⟨by decide, by decide, by decide⟩, rfl, by decide⟩

/-- The fixed set of directory names excluded from indexing
(vault-search.py, lines 57-65). -/
def EXCLUDE_PATTERNS : List String :=
  [".git", ".obsidian", ".beads", ".claude", "node_modules", ".trash", ".txtai-index"]

/-- A file yielded by `vault_root.rglob`: its path components relative to
the root (the walked path `md_file.parts` is the root's own components
followed by these), whether it is a symlink, and `str(md_file.resolve())`
(none models resolve raising OSError or ValueError). -/
structure ScanEntry where
  rel : List String
  isSymlink : Bool
  resolvedPath : Option String
deriving DecidableEq

def charsLead : List Char → List Char → Bool
  | [], _ => true
  | _ :: _, [] => false
  | p :: ps, s :: ss => p = s && charsLead ps ss

/-- Python `s.startswith(pre)` as a character-level left-segment test. -/
def strStartsWith (s pre : String) : Bool := charsLead pre.data s.data

/-- Embedding of `get_markdown_files` (lines 133-151).  `rootParts` are the
components of the vault root path as given, and `rootResolvedStr` is
`str(vault_root.resolve())`; the source checks the exclusion set against
`md_file.parts` (which starts with the root components) and within-root
containment with a string-prefix test on the resolved path. -/
def get_markdown_files (rootParts : List String) (rootResolvedStr : String)
    (entries : List ScanEntry) : List ScanEntry :=
  entries.filter fun e =>
    !e.isSymlink &&
    (match e.resolvedPath with
     | none => false
     | some r => strStartsWith r rootResolvedStr) &&
    !(EXCLUDE_PATTERNS.any fun x => (rootParts ++ e.rel).contains x)

/-- C2 (amended): a scanned file is kept exactly when it is not a symlink,
its path resolves and the resolved path starts with the resolved root
(string prefix), and no excluded name occurs among the components of the
walked path, which include the document root's own components — so a root
whose absolute path contains an excluded name excludes everything beneath
it, and a resolution failure just skips that file. -/
theorem get_markdown_files_characterization (rootParts : List String)
    (rootResolvedStr : String) (entries : List ScanEntry) (e : ScanEntry)
    (he : e ∈ entries) :
    e ∈ get_markdown_files rootParts rootResolvedStr entries ↔
      e.isSymlink = false ∧
      (∃ r, e.resolvedPath = some r ∧ strStartsWith r rootResolvedStr = true) ∧
      ∀ x ∈ EXCLUDE_PATTERNS, ¬ (rootParts ++ e.rel).contains x = true := by
  unfold get_markdown_files
  rw [List.mem_filter]
  cases hrp : e.resolvedPath with
  | none => simp [he, hrp]
  | some r =>
    simp [he, hrp]
    tauto

/-- Witness for the amended C2 theorem at a concrete one-file scan. -/
theorem get_markdown_files_characterization_witness :
    (⟨["a.md"], false, some "/v/a.md"⟩ : ScanEntry) ∈
      get_markdown_files ["v"] "/v" [⟨["a.md"], false, some "/v/a.md"⟩] ↔
      (⟨["a.md"], false, some "/v/a.md"⟩ : ScanEntry).isSymlink = false ∧
      (∃ r, (⟨["a.md"], false, some "/v/a.md"⟩ : ScanEntry).resolvedPath = some r ∧
        strStartsWith r "/v" = true) ∧
      ∀ x ∈ EXCLUDE_PATTERNS, ¬ (["v"] ++ ["a.md"]).contains x = true :=
  get_markdown_files_characterization ["v"] "/v" _ _ (List.mem_cons_self _ _)

/-- C2 counterexample: a vault root whose own absolute path contains the
excluded name `.claude` as a component causes an eligible file directly
under the root — not a symlink, resolving inside the root, with no excluded
name in its root-relative path — to be excluded from the scan. -/
theorem root_component_excludes_eligible_file :
    get_markdown_files ["home", "user", ".claude", "vault"] "/home/user/.claude/vault"
        [⟨["notes.md"], false, some "/home/user/.claude/vault/notes.md"⟩] = [] ∧
    (⟨["notes.md"], false, some "/home/user/.claude/vault/notes.md"⟩ : ScanEntry).isSymlink
        = false ∧
    strStartsWith "/home/user/.claude/vault/notes.md" "/home/user/.claude/vault" = true ∧
    ∀ x ∈ EXCLUDE_PATTERNS, ¬ (["notes.md"] : List String).contains x = true := by
  refine ⟨?_, rfl, ?_, ?_⟩ <;> decide

/-- Client-side daemon bookkeeping: the Process Record file content (none =
file absent), whether the socket file exists, and the pids of currently
existing processes (`os.kill(pid, 0)` succeeds exactly for these). -/
structure DaemonState where
  pidFile : Option String
  socketFile : Bool
  procs : List Nat
deriving DecidableEq

def isSpaceChar (ch : Char) : Bool := ch = ' ' || ch = '\t' || ch = '\n' || ch = '\r'

def dropSpaces : List Char → List Char
  | [] => []
  | ch :: rest => if isSpaceChar ch then dropSpaces rest else ch :: rest

def parseDigits : List Char → Nat → Option Nat
  | [], acc => some acc
  | ch :: rest, acc =>
    if ch.isDigit then parseDigits rest (acc * 10 + (ch.toNat - 48)) else none

/-- `int(PID_FILE.read_text().strip())` on the digit strings the daemon
writes (`str(os.getpid())`): strip surrounding whitespace and parse the
decimal digits; none models the ValueError raised on anything else. -/
def parsePid (s : String) : Option Nat :=
  match (dropSpaces (dropSpaces s.data).reverse).reverse with
  | [] => none
  | chars => parseDigits chars 0

/-- Embedding of `daemon_running` (lines 383-394): the returned flag and
the state after any stale-record self-healing (both the Process Record and
the socket file are unlinked on ValueError or ProcessLookupError). -/
def daemon_running (st : DaemonState) : Bool × DaemonState :=
  match st.pidFile with
  | none => (false, st)
  | some content =>
    match parsePid content with
    | none => (false, { st with pidFile := none, socketFile := false })
    | some pid =>
      if pid ∈ st.procs then (true, st)
      else (false, { st with pidFile := none, socketFile := false })

/-- C7: an absent Process Record returns false with no side effects; an
unparsable record or a recorded pid with no such process deletes both the
Process Record and the socket file and returns false; an existing recorded
process returns true with no side effects. -/
theorem daemon_running_cases (st : DaemonState) :
    (st.pidFile = none → daemon_running st = (false, st)) ∧
    (∀ c, st.pidFile = some c →
      ((parsePid c = none ∨ ∃ pid, parsePid c = some pid ∧ pid ∉ st.procs) →
        daemon_running st = (false, { st with pidFile := none, socketFile := false })) ∧
      (∀ pid, parsePid c = some pid → pid ∈ st.procs →
        daemon_running st = (true, st))) := by
  refine ⟨fun h => by simp [daemon_running, h], fun c hc => ⟨?_, ?_⟩⟩
  · rintro (hp | ⟨pid, hp, hnp⟩)
    · simp [daemon_running, hc, hp]
    · simp [daemon_running, hc, hp, hnp]
  · intro pid hp hmem
    simp [daemon_running, hc, hp, hmem]

/-- Witness for C7 at a concrete stale record. -/
theorem daemon_running_cases_witness :
    daemon_running ⟨some "999", true, []⟩ = (false, ⟨none, false, []⟩) :=
  ((daemon_running_cases ⟨some "999", true, []⟩).2 "999" rfl).1
    (Or.inr ⟨999, by decide, by decide⟩)

/-- Embedding of `stop_daemon` (lines 531-542): the printed message, the
resulting state, and the signals sent as (signal number, pid) pairs.
`honorsTerm` abstracts whether the signalled process exits within the
0.5 second sleep; the two unlinks below happen regardless. -/
def stop_daemon (st : DaemonState) (honorsTerm : Bool) :
    Except String (String × DaemonState × List (Nat × Nat)) :=
  let r := daemon_running st
  if r.1 = false then Except.ok ("Daemon not running", r.2, [])
  else
    match st.pidFile with
    | none => Except.error "unreachable: running daemon without a pid file"
    | some content =>
      match parsePid content with
      | none => Except.error "ValueError"
      | some pid =>
        Except.ok ("Daemon stopped",
          { pidFile := none, socketFile := false,
            procs := if honorsTerm then st.procs.erase pid else st.procs },
          [(15, pid)])

/-- C10: when the daemon is detected as running, `stop_daemon` sends
SIGTERM (signal 15) to the recorded pid and then unconditionally deletes
the Process Record file and the socket file and reports the daemon stopped
— also when the process ignores the signal and is still alive afterwards. -/
theorem stop_daemon_unconditional_cleanup (st : DaemonState) (honorsTerm : Bool)
    (h : (daemon_running st).1 = true) :
    ∃ pid, st.pidFile.bind parsePid = some pid ∧ pid ∈ st.procs ∧
      stop_daemon st honorsTerm = Except.ok ("Daemon stopped",
        { pidFile := none, socketFile := false,
          procs := if honorsTerm then st.procs.erase pid else st.procs },
        [(15, pid)]) := by
  cases hc : st.pidFile with
  | none => simp [daemon_running, hc] at h
  | some c =>
    cases hp : parsePid c with
    | none => simp [daemon_running, hc, hp] at h
    | some pid =>
      by_cases hmem : pid ∈ st.procs
      · refine ⟨pid, hp, hmem, ?_⟩
        have hr : daemon_running st = (true, st) := by
          simp [daemon_running, hc, hp, hmem]
        simp [stop_daemon, hr, hc, hp]
      · simp [daemon_running, hc, hp, hmem] at h

/-- Witness for C10: a daemon whose process ignores SIGTERM is still
reported stopped and its files are deleted. -/
theorem stop_daemon_unconditional_cleanup_witness :
    ∃ pid, (some "42" : Option String).bind parsePid = some pid ∧ pid ∈ [42] ∧
      stop_daemon ⟨some "42", true, [42]⟩ false = Except.ok ("Daemon stopped",
        { pidFile := none, socketFile := false, procs := ([42] : List Nat) },
        [(15, pid)]) :=
  stop_daemon_unconditional_cleanup ⟨some "42", true, [42]⟩ false (by decide)

/-- A parsed request object: each field is present or absent (`req.get` /
`req[...]` semantics). -/
structure ReqObj where
  cmd : Option String
  query : Option String
  limit : Option Nat
  rerank : Option Bool
deriving DecidableEq

/-- Outcome of the `build_index` call made for an `update` command: a
result dict, an error dict (returned for vault-root problems when called
from the daemon), or a raised exception that propagates to the serve
loop's handler. -/
inductive UpdateOutcome where
  | ok (r : BuildResult)
  | errValue (msg : String)
  | raised
deriving DecidableEq

/-- The JSON response written back on a connection. -/
inductive DaemonResponse where
  | searchResults (rs : List SearchResult)
  | okStatus
  | okUpdate (changed deleted : Nat)
  | errUpdate (msg : String)
  | unknownCommand
deriving DecidableEq

/-- Embedding of one serve-loop connection handling (lines 480-528).
`parsed` is the parsed request (none = `json.loads` raised, or the payload
is not an object so `req.get` raises); `searchRaises` is whether
`do_search` raises; `upd` is the `build_index` outcome for `update`.
Returns the response sent, or none when the loop's exception handler runs
instead — the connection is closed either way by the finally block. -/
def handle_connection (parsed : Option ReqObj)
    (embSearch : String → Nat → List SearchResult) (searchRaises : Bool)
    (upd : UpdateOutcome) (rr : String → String → Int) : Option DaemonResponse :=
  match parsed with
  | none => none
  | some req =>
    if req.cmd = some "search" then
      match req.query with
      | none => none
      | some q =>
        if searchRaises then none
        else some (DaemonResponse.searchResults
          (do_search q (req.limit.getD 5) (req.rerank.getD true) embSearch (some rr)))
    else if req.cmd = some "ping" then some DaemonResponse.okStatus
    else if req.cmd = some "update" then
      match upd with
      | UpdateOutcome.ok r => some (DaemonResponse.okUpdate r.changed r.deleted)
      | UpdateOutcome.errValue e => some (DaemonResponse.errUpdate e)
      | UpdateOutcome.raised => none
    else some DaemonResponse.unknownCommand

/-- C1 (amended): at most one response is ever written per connection, and
exactly one is written whenever the request parses to an object and its
handling raises no exception — search with its query field present and a
non-raising search, ping, update whose build does not raise, and unknown
commands; but a JSON parse failure, a search request missing its query
field, or an exception inside the handler close the connection with no
response written. -/
theorem handle_connection_amended (req : ReqObj)
    (embSearch : String → Nat → List SearchResult)
    (upd : UpdateOutcome) (rr : String → String → Int)
    (hq : req.cmd = some "search" → req.query.isSome = true)
    (hu : req.cmd = some "update" → upd ≠ UpdateOutcome.raised) :
    (handle_connection (some req) embSearch false upd rr).isSome = true := by
  simp only [handle_connection]
  by_cases h1 : req.cmd = some "search"
  · rw [if_pos h1]
    obtain ⟨q, hq'⟩ := Option.isSome_iff_exists.mp (hq h1)
    rw [hq']
    simp
  · rw [if_neg h1]
    by_cases h2 : req.cmd = some "ping"
    · rw [if_pos h2]; rfl
    · rw [if_neg h2]
      by_cases h3 : req.cmd = some "update"
      · rw [if_pos h3]
        cases upd with
        | ok r => rfl
        | errValue e => rfl
        | raised => exact absurd rfl (hu h3)
      · rw [if_neg h3]; rfl

/-- Witness for the amended C1 theorem at a concrete ping request. -/
theorem handle_connection_amended_witness :
    (handle_connection (some ⟨some "ping", none, none, none⟩) (fun _ _ => []) false
      (UpdateOutcome.ok ⟨0, 0⟩) (fun _ _ => 0)).isSome = true :=
  handle_connection_amended ⟨some "ping", none, none, none⟩ (fun _ _ => [])
    (UpdateOutcome.ok ⟨0, 0⟩) (fun _ _ => 0) (by decide) (by decide)

/-- C1 counterexample: a malformed JSON request makes `json.loads` raise,
the serve loop's handler only logs, and the connection is closed with no
response written — contradicting the claim that every accepted connection
receives exactly one (possibly error-shaped) response. -/
theorem malformed_request_gets_no_response :
    handle_connection none (fun _ _ => []) false (UpdateOutcome.ok ⟨0, 0⟩)
      (fun _ _ => 0) = none := rfl

/-- Witness for C8: an unchanged single-file incremental build leaves
everything untouched. -/
theorem incremental_noop_short_circuit_witness :
    build_index true ⟨true, true, true⟩ true
        [⟨"a.md", some ⟨3, 10⟩, some "x"⟩]
        ⟨true, {"a.md"}, some [("a.md", MetaVal.record ⟨3, 10⟩)]⟩ none =
      (Except.ok ⟨0, 0⟩,
        ⟨true, {"a.md"}, some [("a.md", MetaVal.record ⟨3, 10⟩)]⟩, []) :=
  incremental_noop_short_circuit true [⟨"a.md", some ⟨3, 10⟩, some "x"⟩]
    ⟨true, {"a.md"}, some [("a.md", MetaVal.record ⟨3, 10⟩)]⟩ none
    [("a.md", ⟨3, 10⟩)] rfl rfl

/-- Witness for C9 at a concrete one-entry legacy file. -/
theorem legacy_metadata_forces_reextraction_witness :
    load_file_metadata (some [("a.md", MetaVal.legacy "deadbeef")]) = [] ∧
    processFiles true (load_file_metadata (some [("a.md", MetaVal.legacy "deadbeef")]))
        [⟨"a.md", some ⟨1, 2⟩, some "x"⟩] =
      processFiles false [] [⟨"a.md", some ⟨1, 2⟩, some "x"⟩] :=
  legacy_metadata_forces_reextraction [("a.md", MetaVal.legacy "deadbeef")]
    [⟨"a.md", some ⟨1, 2⟩, some "x"⟩] (by decide) (by decide)

end VaultSearch
